import Mathlib

/-!
Verification of the pycube merger core (`src/merger.py`) against its
natural-language specification.

The call-tree data model and its traversal come from the collaborator module
`calltree.py`, which is not part of the sources under verification; those
definitions are modelled from the specification (sections 3 and 6) and are
marked as such.  Everything else is a direct shallow embedding of the code in
`src/merger.py`: fallible operations (pandas lookups, joins, selections and
Python assertions) return `Option`, machine floats are modelled as integers
(none of the claims depends on float rounding), and the iteration order of
Python `set` objects — which is ambient, hash-dependent state in CPython — is
passed in explicitly as an enumeration parameter wherever the code iterates
over a set.
-/

namespace Pycube

/-- Modelled from the spec: `calltree.CallTreeNode` (the module `calltree.py`
is not among the sources).  Spec section 3: a node has a unique integer
`nodeId` and an ordered sequence of children; the tree is finite, acyclic and
connected. -/
inductive CallTreeNode : Type where
  | node (cnode_id : Nat) (children : List CallTreeNode)

mutual
/-- Decidable structural equality of call-tree nodes. -/
def CallTreeNode.decEq : ∀ a b : CallTreeNode, Decidable (a = b)
  | .node i cs, .node j ds =>
    match Nat.decEq i j with
    | isFalse h => isFalse (by intro he; cases he; exact h rfl)
    | isTrue hi =>
      match CallTreeNode.decEqForest cs ds with
      | isTrue hc => isTrue (by rw [hi, hc])
      | isFalse h => isFalse (by intro he; cases he; exact h rfl)

/-- Decidable structural equality of lists of call-tree nodes. -/
def CallTreeNode.decEqForest : ∀ cs ds : List CallTreeNode, Decidable (cs = ds)
  | [], [] => isTrue rfl
  | [], _ :: _ => isFalse (by intro he; cases he)
  | _ :: _, [] => isFalse (by intro he; cases he)
  | c :: cs, d :: ds =>
    match CallTreeNode.decEq c d with
    | isFalse h => isFalse (by intro he; cases he; exact h rfl)
    | isTrue h1 =>
      match CallTreeNode.decEqForest cs ds with
      | isTrue h2 => isTrue (by rw [h1, h2])
      | isFalse h => isFalse (by intro he; cases he; exact h rfl)
end

instance : DecidableEq CallTreeNode := CallTreeNode.decEq

/-- The `cnode_id` attribute of a call-tree node. -/
def CallTreeNode.cnode_id : CallTreeNode → Nat
  | .node i _ => i

/-- The `children` attribute of a call-tree node. -/
def CallTreeNode.children : CallTreeNode → List CallTreeNode
  | .node _ cs => cs

mutual
/-- Modelled from the spec: `calltree.iterate_on_call_tree` (spec section 6:
"`iterate(root)` → ordered sequence of CallTreeNode"), enumerating the root
and then, recursively, every descendant. -/
def iterate_on_call_tree : CallTreeNode → List CallTreeNode
  | .node i cs => .node i cs :: iterate_on_forest cs

/-- Traversal of a list of sibling subtrees, in order. -/
def iterate_on_forest : List CallTreeNode → List CallTreeNode
  | [] => []
  | c :: cs => iterate_on_call_tree c ++ iterate_on_forest cs
end

mutual
/-- The inner closure `aggregate` shared (verbatim, up to the lookup it
closes over) by `convert_series_to_inclusive` (merger.py lines 197-201) and
`convert_df_to_inclusive` (lines 261-265):
`value = series.loc[root.cnode_id]; for child in root.children: value +=
aggregate(child); return value`.  A failed `.loc` lookup raises `KeyError`,
embedded as `none`. -/
def aggregate {α : Type} [Add α] (lookup : Nat → Option α) :
    CallTreeNode → Option α
  | .node i cs => do
    let v ← lookup i
    aggregate_children lookup cs v

/-- The `for child in root.children: value += aggregate(child)` loop of
`aggregate`, threading the accumulated value. -/
def aggregate_children {α : Type} [Add α] (lookup : Nat → Option α) :
    List CallTreeNode → α → Option α
  | [], v => some v
  | c :: cs, v => do
    let w ← aggregate lookup c
    aggregate_children lookup cs (v + w)
end

mutual
/-- Specification-side subtree sum: the inclusive value of a node is its own
exclusive value plus the inclusive values of its children. -/
def subtree_sum {α : Type} [AddCommMonoid α] (f : Nat → α) : CallTreeNode → α
  | .node i cs => f i + forest_sum f cs

/-- Sum of the subtree sums of a list of sibling subtrees. -/
def forest_sum {α : Type} [AddCommMonoid α] (f : Nat → α) :
    List CallTreeNode → α
  | [] => 0
  | c :: cs => subtree_sum f c + forest_sum f cs
end

/-- A Python list comprehension whose element expression may raise: the
first failure aborts the whole list. -/
def comprehension {α β : Type} (F : α → Option β) : List α → Option (List β)
  | [] => some []
  | x :: l => do
    let y ← F x
    let ys ← comprehension F l
    pure (y :: ys)

/-- Embedding of `merger.convert_series_to_inclusive` (lines 171-209): for
every node of the traversal, pair its `cnode_id` with `aggregate` of that
node; `.set_index('Cnode ID').metric` turns the pair list into a series,
embedded as an association list.  Any `KeyError` inside `aggregate` aborts
the whole conversion (`none`). -/
def convert_series_to_inclusive (series : Nat → Option ℤ)
    (call_tree : CallTreeNode) : Option (List (Nat × ℤ)) :=
  comprehension
    (fun n => (aggregate series n).map (fun v => (n.cnode_id, v)))
    (iterate_on_call_tree call_tree)

/-- Embedding of `merger.convert_df_to_inclusive` (lines 243-272): identical
recursion with a whole row (one value per (metric, thread) column, embedded
as `Fin k → ℤ`) in place of a scalar; the `concat`/`unstack` epilogue keys
the resulting rows by `Cnode ID`, embedded as an association list. -/
def convert_df_to_inclusive (k : Nat) (df_convertible : Nat → Option (Fin k → ℤ))
    (call_tree : CallTreeNode) : Option (List (Nat × (Fin k → ℤ))) :=
  comprehension
    (fun n => (aggregate df_convertible n).map (fun v => (n.cnode_id, v)))
    (iterate_on_call_tree call_tree)

mutual
/-- Number of `series.loc`/`df.loc` lookups one call `aggregate(root)`
performs on its success path: one for the node itself plus the lookups of
the recursive calls on the children (merger.py lines 197-201: no
memoization — the `lru_cache` attempt at lines 193-196 is commented out). -/
def aggregate_lookup_count : CallTreeNode → Nat
  | .node _ cs => 1 + forest_lookup_count cs

/-- Lookup count of `aggregate` summed over a list of sibling subtrees. -/
def forest_lookup_count : List CallTreeNode → Nat
  | [] => 0
  | c :: cs => aggregate_lookup_count c + forest_lookup_count cs
end

/-- Total number of measurement lookups `convert_series_to_inclusive`
performs: it calls `aggregate` afresh for every node of the traversal
(merger.py lines 204-206), so the counts of the per-node calls add up. -/
def convert_series_lookup_count (call_tree : CallTreeNode) : Nat :=
  ((iterate_on_call_tree call_tree).map aggregate_lookup_count).sum

/-- A linear chain 0 → 1 → 2 → 3 of four nodes. -/
def chain4 : CallTreeNode :=
  .node 0 [.node 1 [.node 2 [.node 3 []]]]

/-- The four-node tree of the end-to-end scenario of spec section 8:
root 0 with children 1 (A) and 2 (B), node 1 with child 3 (C). -/
def scenario_tree : CallTreeNode :=
  .node 0 [.node 1 [.node 3 []], .node 2 []]

/-- The exclusive measurement of the end-to-end scenario of spec section 8:
root = 1, A = 2, B = 3, C = 4. -/
def scenario_excl : Nat → ℤ
  | 0 => 1
  | 1 => 2
  | 2 => 3
  | 3 => 4
  | _ => 0

/-! ### The tabular model for the multi-run merge

A pandas DataFrame is embedded as a list of row keys, a list of column keys
and a row-major cell matrix; a `none` cell is a NaN (as produced by
`unstack` for an absent (callpath, thread) combination). -/

/-- A DataFrame with row keys in `ρ` and column keys in `κ`. -/
structure DF (ρ κ : Type) where
  rows : List ρ
  cols : List κ
  cells : List (List (Option ℤ))
deriving DecidableEq

/-- Cell access by key: the value at row `r`, column `c`, or `none` when the
key pair is absent. -/
def DF.cell {ρ κ : Type} [DecidableEq ρ] [DecidableEq κ]
    (df : DF ρ κ) (r : ρ) (c : κ) : Option ℤ :=
  match df.rows.findIdx? (fun x => decide (x = r)),
      df.cols.findIdx? (fun x => decide (x = c)) with
  | some i, some j =>
    match df.cells[i]? with
    | some row =>
      match row[j]? with
      | some v => v
      | none => none
    | none => none
  | _, _ => none

/-- `df.loc[:, cs]`: select the columns `cs` in the given order; selecting a
column absent from the table raises `KeyError` (`none`). -/
def DF.selectCols {ρ κ : Type} [DecidableEq ρ] [DecidableEq κ]
    (df : DF ρ κ) (cs : List κ) : Option (DF ρ κ) :=
  if cs.all fun c => decide (c ∈ df.cols) then
    some { rows := df.rows, cols := cs,
           cells := df.rows.map fun r => cs.map fun c => df.cell r c }
  else none

/-- Column re-keying, as in the assignment `df2.columns = MultiIndex...`
(merger.py lines 120-123). -/
def DF.mapCols {ρ κ κ' : Type} (f : κ → κ') (df : DF ρ κ) : DF ρ κ' :=
  { rows := df.rows, cols := df.cols.map f, cells := df.cells }

/-- `pd.concat(dfs, axis='columns', join='inner')` (merger.py lines 125 and
139): the surviving rows are the first table's rows restricted to the keys
present in every table, in the first table's order; the columns of all the
tables are laid side by side.  Concatenating an empty list raises
(`none`). -/
def concat_inner {ρ κ : Type} [DecidableEq ρ] [DecidableEq κ] :
    List (DF ρ κ) → Option (DF ρ κ)
  | [] => none
  | d :: ds =>
    let rows := d.rows.filter fun r => ds.all fun d2 => decide (r ∈ d2.rows)
    some { rows := rows,
           cols := ((d :: ds).map DF.cols).flatten,
           cells := rows.map fun r =>
             ((d :: ds).map fun d2 => d2.cols.map fun c => d2.cell r c).flatten }

/-- `df.unstack('Thread ID')` (merger.py line 150) on a table whose rows are
keyed by (Full Callpath, Thread ID): rows become the distinct callpaths,
the thread ids move into the column key, and an absent (callpath, thread)
combination becomes a NaN cell. -/
def DF.unstack_thread {κ : Type} [DecidableEq κ]
    (df : DF (String × Nat) κ) : DF String (κ × Nat) :=
  let cps := (df.rows.map Prod.fst).dedup
  let tids := (df.rows.map Prod.snd).dedup
  { rows := cps,
    cols := (df.cols.map fun c => tids.map fun t => (c, t)).flatten,
    cells := cps.map fun cp =>
      (df.cols.map fun c => tids.map fun t => df.cell (cp, t) c).flatten }

/-- Embedding of the inner function `replace_fcpath_with_cnodeID` of
`process_multi` (merger.py lines 147-163): unstack the thread ids, inner-join
with the (Full Callpath → Cnode ID) table `tmp` of the first run and re-key
the rows by `Cnode ID`.  A row whose callpath has no entry in `tmp` is
dropped by the inner join; nothing raises.  (The two `pipe(pd.DataFrame...)`
steps only rebuild column indexes and are identities here.) -/
def replace_fcpath_with_cnodeID {κ : Type} [DecidableEq κ]
    (tmp : List (String × Nat)) (df : DF (String × Nat) κ) :
    DF Nat (κ × Nat) :=
  let u := df.unstack_thread
  { rows := u.rows.filterMap fun cp => tmp.lookup cp,
    cols := u.cols,
    cells := (u.rows.filter fun cp => (tmp.lookup cp).isSome).map fun cp =>
      u.cols.map fun c => u.cell cp c }

/-- The information `process_multi` uses from one `.cubex` file, as produced
by `process_cubex` and `adjust_df`: the call tree, its tabular form reduced
to the (Full Callpath, Cnode ID) columns used at merger.py lines 144-145,
and the measurement table re-indexed by (Full Callpath, Thread ID) with the
metric names as columns. -/
structure RunInput where
  calltree : CallTreeNode
  calltree_df : List (String × Nat)
  df : DF (String × Nat) String
deriving DecidableEq

/-- `itertools.combinations(l, 2)`, as a list of ordered pairs. -/
def pairs_of {α : Type} : List α → List (α × α)
  | [] => []
  | x :: xs => (xs.map fun y => (x, y)) ++ pairs_of xs

/-- `set.intersection(*column_sets)`: the common core of a nonempty family
of metric-name sets (merger.py line 53). -/
def commonOf : List (Finset String) → Finset String
  | [] => ∅
  | s :: rest => rest.foldl (fun a b => a ∩ b) s

/-- Embedding of `merger.check_column_sets` (lines 48-61): compute the common
core, and assert that the non-common remainders of every pair of sets are
disjoint; a violated assertion raises `AssertionError` (`none`), and so does
calling it on an empty family (`set.intersection()` raises `TypeError`). -/
def check_column_sets (column_sets : List (Finset String)) : Option Unit :=
  match column_sets with
  | [] => none
  | s :: rest =>
    let common_cols := commonOf (s :: rest)
    let noncommon_columns_df := (s :: rest).map fun cs => cs \ common_cols
    if (pairs_of noncommon_columns_df).all
        (fun p => decide ((p.1 ∩ p.2).card = 0)) then
      some ()
    else none

/-- The per-run tables of common metrics, each restricted to the enumeration
`commonOrder` of the common metric-name set and re-keyed by (run, metric)
(merger.py lines 118-123).  `commonOrder` models the ambient, hash-dependent
iteration order with which CPython enumerates the set `common_cols`. -/
def dfs2_common_of (runs : List RunInput) (commonOrder : List String) :
    Option (List (DF (String × Nat) (Nat × String))) :=
  comprehension
    (fun p => (p.2.df.selectCols commonOrder).map (DF.mapCols fun c => (p.1, c)))
    runs.enum

/-- `df_common` before node re-keying (merger.py line 125). -/
def df_common_pre (runs : List RunInput) (commonOrder : List String) :
    Option (DF (String × Nat) (Nat × String)) :=
  (dfs2_common_of runs commonOrder).bind concat_inner

/-- The per-run tables of run-specific metrics (merger.py lines 130-137);
`noncommonOrders` models, per run, the ambient iteration order of the set
difference `columns.difference(common_cols)`. -/
def dfs2_noncommon_of (runs : List RunInput)
    (noncommonOrders : List (List String)) :
    Option (List (DF (String × Nat) String)) :=
  comprehension (fun p => p.1.selectCols p.2) ((runs.map RunInput.df).zip noncommonOrders)

/-- `df_noncommon` before node re-keying (merger.py line 139). -/
def df_noncommon_pre (runs : List RunInput)
    (noncommonOrders : List (List String)) :
    Option (DF (String × Nat) String) :=
  (dfs2_noncommon_of runs noncommonOrders).bind concat_inner

/-- Embedding of `merger.process_multi` (lines 64-168): read all runs, build
the common and non-common merged tables, then re-key both from full
callpaths to the first run's Cnode IDs.  The first run's call tree and the
two tables are returned.  `commonOrder` and `noncommonOrders` model the
ambient iteration order of the Python sets `common_cols` and
`columns.difference(common_cols)` (hash-dependent state of the CPython
process, not an input of the algorithm). -/
def process_multi (runs : List RunInput) (commonOrder : List String)
    (noncommonOrders : List (List String)) :
    Option (CallTreeNode × DF Nat ((Nat × String) × Nat) × DF Nat (String × Nat)) := do
  let first ← runs.head?
  let dfc ← df_common_pre runs commonOrder
  let dfn ← df_noncommon_pre runs noncommonOrders
  pure (first.calltree,
    replace_fcpath_with_cnodeID first.calltree_df dfc,
    replace_fcpath_with_cnodeID first.calltree_df dfn)

/-- Embedding of `merger.select_metrics` (lines 212-240) at the column type
produced by the merge, (run, metric): restrict the table to the columns whose
metric name lies in the intersection of the requested names and the metric
names present, keeping the table's column order. -/
def select_metrics {ρ : Type} [DecidableEq ρ]
    (df : DF ρ (Nat × String)) (selected_metrics : List String) :
    DF ρ (Nat × String) :=
  let possible_metrics :=
    selected_metrics.toFinset ∩ (df.cols.map Prod.snd).toFinset
  { rows := df.rows,
    cols := df.cols.filter fun c => decide (c.2 ∈ possible_metrics),
    cells := df.cells.map fun row =>
      ((df.cols.zip row).filter fun p =>
        decide (p.1.2 ∈ possible_metrics)).map Prod.snd }

/-- A one-row merged table containing only the metric "time". -/
def time_only_df : DF Nat (Nat × String) :=
  { rows := [0], cols := [(0, "time")], cells := [[some 5]] }

/-- The table `dfs2_common_of` builds for the pair `p = (run index, run)`:
the run's rows, the common metrics in enumeration order re-keyed by
(run, metric), and the corresponding cells. -/
def common_block (co : List String) (p : Nat × RunInput) :
    DF (String × Nat) (Nat × String) :=
  { rows := p.2.df.rows,
    cols := co.map fun c => (p.1, c),
    cells := p.2.df.rows.map fun r => co.map fun c => p.2.df.cell r c }

/-- The table `dfs2_noncommon_of` builds for a (run table, enumeration)
pair. -/
def noncommon_block (p : DF (String × Nat) String × List String) :
    DF (String × Nat) String :=
  { rows := p.1.rows,
    cols := p.2,
    cells := p.1.rows.map fun r => p.2.map fun c => p.1.cell r c }

instance :
    DecidableEq (CallTreeNode ×
      DF Nat ((Nat × String) × Nat) × DF Nat (String × Nat)) :=
  fun a b => inferInstanceAs (Decidable (a = b))

/-! ### Concrete runs used by the merge claims -/

/-- A one-node call tree shared by the concrete merge examples. -/
def tiny_tree : CallTreeNode := .node 0 []

/-- A run with metrics a, c on the single row (m, 0). -/
def run_ac1 : RunInput :=
  { calltree := tiny_tree, calltree_df := [("m", 0)],
    df := { rows := [("m", 0)], cols := ["a", "c"],
            cells := [[some 1, some 2]] } }

/-- Another run with metrics a, c. -/
def run_ac2 : RunInput :=
  { calltree := tiny_tree, calltree_df := [("m", 0)],
    df := { rows := [("m", 0)], cols := ["a", "c"],
            cells := [[some 3, some 4]] } }

/-- A run with only metric a. -/
def run_a : RunInput :=
  { calltree := tiny_tree, calltree_df := [("m", 0)],
    df := { rows := [("m", 0)], cols := ["a"], cells := [[some 5]] } }

/-- Three runs whose metric-name sets {a,c}, {a,c}, {a} violate the
partition invariant: c lies in the non-common remainders of two runs. -/
def violating_runs : List RunInput := [run_ac1, run_ac2, run_a]

/-- The common merged table `process_multi` builds for `violating_runs`. -/
def violating_dc : DF (String × Nat) (Nat × String) :=
  { rows := [("m", 0)], cols := [(0, "a"), (1, "a"), (2, "a")],
    cells := [[some 1, some 3, some 5]] }

/-- The non-common merged table for `violating_runs`: the ambiguous metric
c appears twice, silently. -/
def violating_dn : DF (String × Nat) String :=
  { rows := [("m", 0)], cols := ["c", "c"], cells := [[some 2, some 4]] }

/-- A run with metrics a, b. -/
def run_ab1 : RunInput :=
  { calltree := tiny_tree, calltree_df := [("m", 0)],
    df := { rows := [("m", 0)], cols := ["a", "b"],
            cells := [[some 1, some 2]] } }

/-- Another run with metrics a, b. -/
def run_ab2 : RunInput :=
  { calltree := tiny_tree, calltree_df := [("m", 0)],
    df := { rows := [("m", 0)], cols := ["a", "b"],
            cells := [[some 3, some 4]] } }

/-- Two runs with identical metric sets {a, b}. -/
def two_runs : List RunInput := [run_ab1, run_ab2]

/-- The pre-re-keying common table of `two_runs` under the enumeration
a, b. -/
def two_runs_dc : DF (String × Nat) (Nat × String) :=
  { rows := [("m", 0)], cols := [(0, "a"), (0, "b"), (1, "a"), (1, "b")],
    cells := [[some 1, some 2, some 3, some 4]] }

/-- The pre-re-keying common table of `two_runs` under the enumeration
b, a. -/
def two_runs_dc_rev : DF (String × Nat) (Nat × String) :=
  { rows := [("m", 0)], cols := [(0, "b"), (0, "a"), (1, "b"), (1, "a")],
    cells := [[some 2, some 1, some 4, some 3]] }

/-- The (empty-columned) non-common table of `two_runs`. -/
def two_runs_dn : DF (String × Nat) String :=
  { rows := [("m", 0)], cols := [], cells := [[]] }

/-- A run reporting two (callpath, thread) rows. -/
def run_two_rows : RunInput :=
  { calltree := tiny_tree, calltree_df := [("m", 0)],
    df := { rows := [("m", 0), ("m", 1)], cols := ["a"],
            cells := [[some 1], [some 2]] } }

mutual
/-- Every node reachable from a node of the traversal is itself in the
traversal. -/
theorem mem_iterate_of_mem_iterate : ∀ t n u : CallTreeNode,
    n ∈ iterate_on_call_tree t → u ∈ iterate_on_call_tree n →
    u ∈ iterate_on_call_tree t
  | .node i cs, n, u => fun hn hu => by
    rw [iterate_on_call_tree] at hn ⊢
    rcases List.mem_cons.mp hn with h | h
    · subst h; exact hu
    · exact List.mem_cons_of_mem _ (mem_forest_of_mem_iterate cs n u h hu)

/-- Forest version of `mem_iterate_of_mem_iterate`. -/
theorem mem_forest_of_mem_iterate : ∀ (cs : List CallTreeNode) (n u : CallTreeNode),
    n ∈ iterate_on_forest cs → u ∈ iterate_on_call_tree n →
    u ∈ iterate_on_forest cs
  | [], n, _ => fun hn _ => absurd hn (by rw [iterate_on_forest]; exact List.not_mem_nil n)
  | c :: cs, n, u => fun hn hu => by
    rw [iterate_on_forest] at hn ⊢
    rcases List.mem_append.mp hn with h | h
    · exact List.mem_append.mpr (Or.inl (mem_iterate_of_mem_iterate c n u h hu))
    · exact List.mem_append.mpr (Or.inr (mem_forest_of_mem_iterate cs n u h hu))
end

mutual
/-- If the measurement has an entry for every node of the subtree, then
`aggregate` succeeds and returns exactly the subtree sum. -/
theorem aggregate_eq_subtree_sum {α : Type} [AddCommMonoid α]
    (lookup : Nat → Option α) (f : Nat → α) : ∀ t : CallTreeNode,
    (∀ v ∈ iterate_on_call_tree t, lookup v.cnode_id = some (f v.cnode_id)) →
    aggregate lookup t = some (subtree_sum f t)
  | .node i cs => fun h => by
    have hi : lookup i = some (f i) := by
      have := h (.node i cs)
        (by rw [iterate_on_call_tree]; exact List.mem_cons_self _ _)
      simpa [CallTreeNode.cnode_id] using this
    have hcs : ∀ v ∈ iterate_on_forest cs,
        lookup v.cnode_id = some (f v.cnode_id) := fun v hv =>
      h v (by rw [iterate_on_call_tree]; exact List.mem_cons_of_mem _ hv)
    rw [aggregate, subtree_sum, hi]
    simpa using aggregate_children_eq lookup f cs hcs (f i)

/-- The accumulation loop of `aggregate` adds the forest sum to the
accumulator. -/
theorem aggregate_children_eq {α : Type} [AddCommMonoid α]
    (lookup : Nat → Option α) (f : Nat → α) : ∀ cs : List CallTreeNode,
    (∀ v ∈ iterate_on_forest cs, lookup v.cnode_id = some (f v.cnode_id)) →
    ∀ a : α, aggregate_children lookup cs a = some (a + forest_sum f cs)
  | [] => fun _ a => by rw [aggregate_children, forest_sum]; simp
  | c :: cs => fun h a => by
    have hc : ∀ v ∈ iterate_on_call_tree c,
        lookup v.cnode_id = some (f v.cnode_id) := fun v hv =>
      h v (by rw [iterate_on_forest]; exact List.mem_append.mpr (Or.inl hv))
    have hcs : ∀ v ∈ iterate_on_forest cs,
        lookup v.cnode_id = some (f v.cnode_id) := fun v hv =>
      h v (by rw [iterate_on_forest]; exact List.mem_append.mpr (Or.inr hv))
    rw [aggregate_children, forest_sum, aggregate_eq_subtree_sum lookup f c hc]
    simpa [add_assoc] using
      aggregate_children_eq lookup f cs hcs (a + subtree_sum f c)
end

/-- The forest sum is the sum of the subtree sums of its members. -/
theorem forest_sum_eq_map_sum {α : Type} [AddCommMonoid α] (f : Nat → α) :
    ∀ cs : List CallTreeNode, forest_sum f cs = (cs.map (subtree_sum f)).sum
  | [] => by rw [forest_sum]; simp
  | c :: cs => by rw [forest_sum]; simp [forest_sum_eq_map_sum f cs]

/-- A comprehension succeeds pointwise when every element succeeds. -/
theorem comprehension_eq_some_map {α β : Type} (F : α → Option β) (G : α → β) :
    ∀ l : List α, (∀ x ∈ l, F x = some (G x)) →
      comprehension F l = some (l.map G)
  | [] => fun _ => rfl
  | x :: l => fun h => by
    have hx := h x (List.mem_cons_self x l)
    have hl := comprehension_eq_some_map F G l
      fun y hy => h y (List.mem_cons_of_mem _ hy)
    simp [comprehension, hx, hl]

/-- A comprehension fails as soon as any element fails. -/
theorem comprehension_eq_none_of_mem {α β : Type} (F : α → Option β) :
    ∀ (l : List α) (x : α), x ∈ l → F x = none → comprehension F l = none
  | y :: l, x, hx, hF => by
    rcases List.mem_cons.mp hx with h | h
    · subst h; simp [comprehension, hF]
    · cases hFy : F y <;>
        simp [comprehension, hFy, comprehension_eq_none_of_mem F l x h hF]

/-- Association-list lookup built from a node list with distinct ids finds
each node's own entry. -/
theorem lookup_map_of_nodup {β : Type} :
    ∀ l : List CallTreeNode, (l.map CallTreeNode.cnode_id).Nodup →
    ∀ (G : CallTreeNode → β) (v : CallTreeNode), v ∈ l →
    (l.map fun n => (n.cnode_id, G n)).lookup v.cnode_id = some (G v)
  | [], _, _, v, hv => absurd hv (List.not_mem_nil v)
  | n :: l, hnd, G, v, hv => by
    rw [List.map_cons] at hnd ⊢
    rcases List.mem_cons.mp hv with h | h
    · subst h; simp [List.lookup]
    · have hvl : v.cnode_id ∈ l.map CallTreeNode.cnode_id :=
        List.mem_map_of_mem _ h
      have hne : v.cnode_id ≠ n.cnode_id := fun he =>
        (List.nodup_cons.mp hnd).1 (he ▸ hvl)
      have hrec := lookup_map_of_nodup l (List.nodup_cons.mp hnd).2 G v h
      have hb : (v.cnode_id == n.cnode_id) = false := by simpa using hne
      simp [List.lookup, hb, hrec]

mutual
/-- `aggregate` performs exactly one lookup per node of the subtree it is
called on. -/
theorem aggregate_lookup_count_eq_size : ∀ t : CallTreeNode,
    aggregate_lookup_count t = (iterate_on_call_tree t).length
  | .node i cs => by
    rw [aggregate_lookup_count, iterate_on_call_tree, List.length_cons,
      forest_lookup_count_eq_size cs]
    omega

/-- Forest version of `aggregate_lookup_count_eq_size`. -/
theorem forest_lookup_count_eq_size : ∀ cs : List CallTreeNode,
    forest_lookup_count cs = (iterate_on_forest cs).length
  | [] => by rw [forest_lookup_count, iterate_on_forest]; rfl
  | c :: cs => by
    rw [forest_lookup_count, iterate_on_forest, List.length_append,
      aggregate_lookup_count_eq_size c, forest_lookup_count_eq_size cs]
end

/-- C1: for every call tree with distinct node ids and every exclusive
measurement (series or table) with an entry at every node of the tree, the
exclusive-to-inclusive conversion succeeds and its value at each node `v` is
the sum of exclusive values over the subtree rooted at `v`, which equals
`v`'s exclusive value plus the sum of the inclusive values of `v`'s direct
children; at a leaf it is `v`'s exclusive value unchanged. -/
theorem inclusive_conversion_subtree_sums
    (t : CallTreeNode)
    (hnd : ((iterate_on_call_tree t).map CallTreeNode.cnode_id).Nodup)
    (series : Nat → Option ℤ) (f : Nat → ℤ)
    (hs : ∀ v ∈ iterate_on_call_tree t, series v.cnode_id = some (f v.cnode_id))
    (k : Nat) (dfq : Nat → Option (Fin k → ℤ)) (g : Nat → Fin k → ℤ)
    (hd : ∀ v ∈ iterate_on_call_tree t, dfq v.cnode_id = some (g v.cnode_id)) :
    ∃ res resd,
      convert_series_to_inclusive series t = some res ∧
      convert_df_to_inclusive k dfq t = some resd ∧
      ∀ v ∈ iterate_on_call_tree t,
        res.lookup v.cnode_id = some (subtree_sum f v) ∧
        resd.lookup v.cnode_id = some (subtree_sum g v) ∧
        subtree_sum f v = f v.cnode_id + (v.children.map (subtree_sum f)).sum ∧
        (v.children = [] → subtree_sum f v = f v.cnode_id) := by
  have hagg : ∀ v ∈ iterate_on_call_tree t,
      aggregate series v = some (subtree_sum f v) := fun v hv =>
    aggregate_eq_subtree_sum series f v
      fun u hu => hs u (mem_iterate_of_mem_iterate t v u hv hu)
  have haggd : ∀ v ∈ iterate_on_call_tree t,
      aggregate dfq v = some (subtree_sum g v) := fun v hv =>
    aggregate_eq_subtree_sum dfq g v
      fun u hu => hd u (mem_iterate_of_mem_iterate t v u hv hu)
  refine ⟨_, _,
    comprehension_eq_some_map _ (fun n => (n.cnode_id, subtree_sum f n)) _
      (fun n hn => by rw [hagg n hn]; rfl),
    comprehension_eq_some_map _ (fun n => (n.cnode_id, subtree_sum g n)) _
      (fun n hn => by rw [haggd n hn]; rfl), ?_⟩
  intro v hv
  refine ⟨lookup_map_of_nodup _ hnd _ v hv, lookup_map_of_nodup _ hnd _ v hv,
    ?_, ?_⟩
  · cases v with
    | node i cs =>
      rw [subtree_sum, forest_sum_eq_map_sum]
      simp [CallTreeNode.cnode_id, CallTreeNode.children]
  · intro hleaf
    cases v with
    | node i cs =>
      simp only [CallTreeNode.children] at hleaf
      subst hleaf
      rw [subtree_sum, forest_sum]
      simp [CallTreeNode.cnode_id]

/-- Witness for C1 on the spec section 8 scenario tree. -/
theorem inclusive_conversion_subtree_sums_witness :
    ((iterate_on_call_tree scenario_tree).map CallTreeNode.cnode_id).Nodup ∧
    (∃ res resd,
      convert_series_to_inclusive (fun i => some (scenario_excl i))
        scenario_tree = some res ∧
      convert_df_to_inclusive 1 (fun i => some fun _ => scenario_excl i)
        scenario_tree = some resd ∧
      ∀ v ∈ iterate_on_call_tree scenario_tree,
        res.lookup v.cnode_id = some (subtree_sum scenario_excl v) ∧
        resd.lookup v.cnode_id =
          some (subtree_sum (fun i _ => scenario_excl i) v) ∧
        subtree_sum scenario_excl v =
          scenario_excl v.cnode_id +
            (v.children.map (subtree_sum scenario_excl)).sum ∧
        (v.children = [] →
          subtree_sum scenario_excl v = scenario_excl v.cnode_id)) :=
  ⟨by decide,
    inclusive_conversion_subtree_sums scenario_tree (by decide)
      _ scenario_excl (fun v _ => rfl)
      1 _ (fun i _ => scenario_excl i) (fun v _ => rfl)⟩

/-- C3 (code divergence): the conversion does not visit each node once; it
calls `aggregate` afresh at every node of the traversal, so the number of
measurement lookups is the sum of all subtree sizes — on the four-node chain
`chain4` it performs 10 lookups instead of 4, quadratic rather than linear
growth, with no memoized per-node mapping. -/
theorem conversion_lookup_count_not_linear :
    (∀ t : CallTreeNode, convert_series_lookup_count t =
      ((iterate_on_call_tree t).map fun n =>
        (iterate_on_call_tree n).length).sum) ∧
    (iterate_on_call_tree chain4).length = 4 ∧
    convert_series_lookup_count chain4 = 10 := by
  refine ⟨fun t => ?_, by decide, by decide⟩
  rw [convert_series_lookup_count]
  exact congrArg List.sum
    (List.map_eq_map_iff.mpr fun a _ => aggregate_lookup_count_eq_size a)

/-- C8: if any node reachable in the tree has no recorded measurement, the
conversion (series or table) fails with an error rather than treating the
absence as zero. -/
theorem conversion_fails_on_missing_node
    (t v : CallTreeNode) (hv : v ∈ iterate_on_call_tree t)
    (series : Nat → Option ℤ) (hs : series v.cnode_id = none)
    (k : Nat) (dfq : Nat → Option (Fin k → ℤ)) (hd : dfq v.cnode_id = none) :
    convert_series_to_inclusive series t = none ∧
    convert_df_to_inclusive k dfq t = none := by
  constructor
  · have h1 : aggregate series v = none := by
      cases v with
      | node i cs =>
        simp only [CallTreeNode.cnode_id] at hs
        rw [aggregate, hs]
        rfl
    exact comprehension_eq_none_of_mem _ _ v hv (by rw [h1]; rfl)
  · have h1 : aggregate dfq v = none := by
      cases v with
      | node i cs =>
        simp only [CallTreeNode.cnode_id] at hd
        rw [aggregate, hd]
        rfl
    exact comprehension_eq_none_of_mem _ _ v hv (by rw [h1]; rfl)

/-- Witness for C8: a series with no entry at the root of the scenario
tree. -/
theorem conversion_fails_on_missing_node_witness :
    scenario_tree ∈ iterate_on_call_tree scenario_tree ∧
    convert_series_to_inclusive (fun _ => none) scenario_tree = none ∧
    convert_df_to_inclusive 1 (fun _ => none) scenario_tree = none :=
  ⟨by decide,
    conversion_fails_on_missing_node scenario_tree scenario_tree (by decide)
      (fun _ => none) rfl 1 (fun _ => none) rfl⟩

/-- Characterization of a successful column selection. -/
theorem selectCols_eq_some {ρ κ : Type} [DecidableEq ρ] [DecidableEq κ]
    (df : DF ρ κ) (cs : List κ) (h : ∀ c ∈ cs, c ∈ df.cols) :
    df.selectCols cs = some { rows := df.rows, cols := cs,
                              cells := df.rows.map fun r =>
                                cs.map fun c => df.cell r c } := by
  have hb : (cs.all fun c => decide (c ∈ df.cols)) = true := by
    simpa [List.all_eq_true] using h
  rw [DF.selectCols, if_pos hb]

/-- A column selection succeeds exactly when every requested column is
present. -/
theorem selectCols_isSome_iff {ρ κ : Type} [DecidableEq ρ] [DecidableEq κ]
    (df : DF ρ κ) (cs : List κ) :
    (df.selectCols cs).isSome = true ↔ ∀ c ∈ cs, c ∈ df.cols := by
  rw [DF.selectCols]
  split <;> simp_all [List.all_eq_true]

/-- A successful comprehension has succeeded on every element. -/
theorem comprehension_mem_isSome {α β : Type} (F : α → Option β) :
    ∀ (l : List α) (out : List β), comprehension F l = some out →
      ∀ x ∈ l, (F x).isSome = true
  | [], _, _ => by simp
  | x :: l, out, h => by
    rw [comprehension] at h
    cases hF : F x with
    | none => rw [hF] at h; simp at h
    | some y =>
      rw [hF] at h
      cases hrec : comprehension F l with
      | none => rw [hrec] at h; simp at h
      | some ys =>
        intro z hz
        rcases List.mem_cons.mp hz with rfl | hzl
        · simp [hF]
        · exact comprehension_mem_isSome F l ys hrec z hzl

/-- Membership in the iterated intersection. -/
theorem mem_foldl_inter (x : String) :
    ∀ (rest : List (Finset String)) (a : Finset String),
      x ∈ rest.foldl (fun a b => a ∩ b) a ↔ x ∈ a ∧ ∀ S ∈ rest, x ∈ S
  | [], a => by simp
  | s :: rest, a => by
    rw [List.foldl_cons, mem_foldl_inter x rest (a ∩ s)]
    simp only [Finset.mem_inter, List.forall_mem_cons]
    tauto

/-- Membership in the common core of a nonempty family. -/
theorem commonOf_mem (x : String) (s : Finset String)
    (rest : List (Finset String)) :
    x ∈ commonOf (s :: rest) ↔ ∀ S ∈ s :: rest, x ∈ S := by
  rw [commonOf, mem_foldl_inter]
  simp [List.forall_mem_cons]

/-- A check over all unordered pairs is a pairwise property. -/
theorem pairs_of_all_iff {α : Type} (P : α → α → Bool) :
    ∀ l : List α, ((pairs_of l).all fun p => P p.1 p.2) = true ↔
      l.Pairwise fun a b => P a b = true
  | [] => by simp [pairs_of]
  | x :: xs => by
    rw [pairs_of]
    simp only [List.all_append, Bool.and_eq_true,
      List.pairwise_cons, pairs_of_all_iff P xs, List.all_eq_true]
    constructor
    · rintro ⟨h1, h2⟩
      exact ⟨fun a ha => h1 (x, a) (List.mem_map_of_mem _ ha), h2⟩
    · rintro ⟨h1, h2⟩
      refine ⟨fun p hp => ?_, h2⟩
      rcases List.mem_map.mp hp with ⟨y, hy, rfl⟩
      exact h1 y hy

/-- C4: for a family of at least two metric-name sets, `check_column_sets`
computes the common core as the intersection of all the sets, returns
normally when the non-common remainders are pairwise disjoint, and raises
an assertion error precisely when some metric name lies in the remainders
of two different sets. -/
theorem check_column_sets_characterization
    (column_sets : List (Finset String)) (h2 : 2 ≤ column_sets.length) :
    (∀ x, x ∈ commonOf column_sets ↔ ∀ S ∈ column_sets, x ∈ S) ∧
    ((check_column_sets column_sets).isSome = true ↔
      column_sets.Pairwise fun a b =>
        Disjoint (a \ commonOf column_sets) (b \ commonOf column_sets)) := by
  match column_sets with
  | s :: rest =>
    refine ⟨fun x => commonOf_mem x s rest, ?_⟩
    have hpairs := pairs_of_all_iff
      (fun a b : Finset String => decide ((a ∩ b).card = 0))
      ((s :: rest).map fun cs => cs \ commonOf (s :: rest))
    have hdisj : ∀ a b : Finset String,
        ((a ∩ b).card = 0) ↔ Disjoint a b := fun a b => by
      rw [Finset.card_eq_zero, ← Finset.disjoint_iff_inter_eq_empty]
    simp only [check_column_sets]
    split
    · next hb =>
      simp only [Option.isSome_some, true_iff]
      have := hpairs.mp hb
      rw [List.pairwise_map] at this
      exact this.imp fun {a b} hab => (hdisj _ _).mp (by simpa using hab)
    · next hb =>
      simp only [Option.isSome_none, Bool.false_eq_true, false_iff]
      intro hpw
      exact hb (hpairs.mpr (List.pairwise_map.mpr
        (hpw.imp fun {a b} hab => by simpa using (hdisj _ _).mpr hab)))

/-- Witness for C4 on the example of spec section 8. -/
theorem check_column_sets_characterization_witness :
    2 ≤ ([{"a", "b", "c"}, {"a", "b", "d"}, {"a", "b", "e"}] :
      List (Finset String)).length ∧
    ((∀ x, x ∈ commonOf [{"a", "b", "c"}, {"a", "b", "d"}, {"a", "b", "e"}] ↔
        ∀ S ∈ ([{"a", "b", "c"}, {"a", "b", "d"}, {"a", "b", "e"}] :
          List (Finset String)), x ∈ S) ∧
      ((check_column_sets
          [{"a", "b", "c"}, {"a", "b", "d"}, {"a", "b", "e"}]).isSome = true ↔
        ([{"a", "b", "c"}, {"a", "b", "d"}, {"a", "b", "e"}] :
          List (Finset String)).Pairwise fun a b =>
          Disjoint
            (a \ commonOf [{"a", "b", "c"}, {"a", "b", "d"}, {"a", "b", "e"}])
            (b \ commonOf
              [{"a", "b", "c"}, {"a", "b", "d"}, {"a", "b", "e"}]))) :=
  ⟨by decide, check_column_sets_characterization _ (by decide)⟩

/-- C7: `select_metrics` returns the sub-table of exactly those columns
whose metric name is both requested and present (the rows are untouched);
requesting an absent name is no error — it is dropped — so requesting
time and bogus from a table containing only time returns the one-column
table containing time. -/
theorem select_metrics_keeps_requested_and_present :
    (∀ (df : DF Nat (Nat × String)) (sel : List String) (c : Nat × String),
      (c ∈ (select_metrics df sel).cols ↔ c ∈ df.cols ∧ c.2 ∈ sel) ∧
      (select_metrics df sel).rows = df.rows) ∧
    select_metrics time_only_df ["time", "bogus"] =
      { rows := [0], cols := [(0, "time")], cells := [[some 5]] } := by
  refine ⟨fun df sel c => ⟨?_, rfl⟩, by decide⟩
  simp only [select_metrics, List.mem_filter, decide_eq_true_eq,
    Finset.mem_inter, List.mem_toFinset]
  exact ⟨fun ⟨h1, h2, _⟩ => ⟨h1, h2⟩,
    fun ⟨h1, h2⟩ => ⟨h1, h2, List.mem_map_of_mem _ h1⟩⟩

/-- Shape of `df_common` before re-keying, given that every enumerated
common metric is a column of every run: the merge succeeds, its rows are
the first run's rows restricted to the keys present in every run, and its
columns are the (run, metric) pairs in enumeration order, run-major. -/
theorem df_common_pre_spec (r0 : RunInput) (rest : List RunInput)
    (co : List String)
    (hsel : ∀ run ∈ r0 :: rest, ∀ c ∈ co, c ∈ run.df.cols) :
    ∃ dc, df_common_pre (r0 :: rest) co = some dc ∧
      dc.rows = r0.df.rows.filter
        (fun r => rest.all fun run => decide (r ∈ run.df.rows)) ∧
      dc.cols = ((r0 :: rest).enum.map fun p =>
        co.map fun c => (p.1, c)).flatten := by
  have hF : ∀ p ∈ (r0 :: rest).enum,
      ((p.2.df.selectCols co).map (DF.mapCols fun c => (p.1, c)))
        = some (common_block co p) := by
    intro p hp
    have hmem : p.2 ∈ r0 :: rest := by
      have h1 := List.mem_map_of_mem Prod.snd hp
      rwa [List.enum, List.enumFrom_map_snd] at h1
    rw [selectCols_eq_some p.2.df co (hsel p.2 hmem)]
    rfl
  have hl : dfs2_common_of (r0 :: rest) co =
      some ((r0 :: rest).enum.map (common_block co)) :=
    comprehension_eq_some_map _ _ _ hF
  rw [df_common_pre, hl, Option.some_bind]
  have hcons : (r0 :: rest).enum.map (common_block co) =
      common_block co (0, r0) :: (rest.enumFrom 1).map (common_block co) := rfl
  rw [hcons, concat_inner]
  refine ⟨_, rfl, ?_, ?_⟩
  · show (common_block co (0, r0)).rows.filter _ = _
    refine List.filter_congr fun r _ => ?_
    rw [Bool.eq_iff_iff]
    simp only [List.all_eq_true, decide_eq_true_eq, List.mem_map]
    constructor
    · intro h run hrun
      have hr : run ∈ (rest.enumFrom 1).map Prod.snd := by
        rw [List.enumFrom_map_snd]; exact hrun
      rcases List.mem_map.mp hr with ⟨p, hp, he⟩
      have := h (common_block co p) ⟨p, hp, rfl⟩
      rw [show (common_block co p).rows = p.2.df.rows from rfl, he] at this
      exact this
    · rintro h d2 ⟨p, hp, rfl⟩
      have hr : p.2 ∈ rest := by
        have := List.mem_map_of_mem Prod.snd hp
        rwa [List.enumFrom_map_snd] at this
      exact h p.2 hr
  · show ((common_block co (0, r0) ::
      (rest.enumFrom 1).map (common_block co)).map DF.cols).flatten = _
    rw [List.map_cons, List.map_map]
    rfl

/-- Shape of `df_noncommon` before re-keying: the merge succeeds, its rows
are the same restriction of the first run's rows, and its columns are the
run-specific enumerations laid side by side. -/
theorem df_noncommon_pre_spec (r0 : RunInput) (rest : List RunInput)
    (n0 : List String) (nrest : List (List String))
    (hlen : nrest.length = rest.length)
    (hsel : ∀ p ∈ ((r0 :: rest).map RunInput.df).zip (n0 :: nrest),
      ∀ c ∈ p.2, c ∈ p.1.cols) :
    ∃ dn, df_noncommon_pre (r0 :: rest) (n0 :: nrest) = some dn ∧
      dn.rows = r0.df.rows.filter
        (fun r => rest.all fun run => decide (r ∈ run.df.rows)) ∧
      dn.cols = (n0 :: nrest).flatten := by
  have hF : ∀ p ∈ ((r0 :: rest).map RunInput.df).zip (n0 :: nrest),
      p.1.selectCols p.2 = some (noncommon_block p) := by
    intro p hp
    rw [selectCols_eq_some p.1 p.2 (hsel p hp)]
    rfl
  have hl : dfs2_noncommon_of (r0 :: rest) (n0 :: nrest) =
      some ((((r0 :: rest).map RunInput.df).zip (n0 :: nrest)).map
        noncommon_block) :=
    comprehension_eq_some_map _ _ _ hF
  rw [df_noncommon_pre, hl, Option.some_bind]
  have hcons : (((r0 :: rest).map RunInput.df).zip (n0 :: nrest)).map
      noncommon_block = noncommon_block (r0.df, n0) ::
        ((rest.map RunInput.df).zip nrest).map noncommon_block := rfl
  rw [hcons, concat_inner]
  have hlen' : (rest.map RunInput.df).length = rest.length := by
    rw [List.length_map]
  refine ⟨_, rfl, ?_, ?_⟩
  · show (noncommon_block (r0.df, n0)).rows.filter _ = _
    refine List.filter_congr fun r _ => ?_
    rw [Bool.eq_iff_iff]
    simp only [List.all_eq_true, decide_eq_true_eq, List.mem_map]
    constructor
    · intro h run hrun
      have hdf : run.df ∈ (rest.map RunInput.df) := List.mem_map_of_mem _ hrun
      have hfst : run.df ∈ ((rest.map RunInput.df).zip nrest).map Prod.fst := by
        rw [List.map_fst_zip _ _ (by rw [hlen', hlen])]; exact hdf
      rcases List.mem_map.mp hfst with ⟨p, hp, he⟩
      have := h (noncommon_block p) ⟨p, hp, rfl⟩
      rw [show (noncommon_block p).rows = p.1.rows from rfl, he] at this
      exact this
    · rintro h d2 ⟨p, hp, rfl⟩
      have h1 : p.1 ∈ (rest.map RunInput.df) := by
        have := List.mem_map_of_mem Prod.fst hp
        rwa [List.map_fst_zip _ _ (by rw [hlen', hlen])] at this
      rcases List.mem_map.mp h1 with ⟨run, hrun, he⟩
      show r ∈ p.1.rows
      rw [← he]
      exact h run hrun
  · show ((noncommon_block (r0.df, n0) ::
      ((rest.map RunInput.df).zip nrest).map noncommon_block).map
        DF.cols).flatten = _
    rw [List.map_cons, List.map_map]
    have : (DF.cols ∘ noncommon_block) = Prod.snd := rfl
    rw [this, List.map_snd_zip _ _ (by rw [hlen', hlen])]
    rfl

/-- The rows of the re-keyed table, unfolded. -/
theorem replace_rows_eq {κ : Type} [DecidableEq κ]
    (tmp : List (String × Nat)) (df : DF (String × Nat) κ) :
    (replace_fcpath_with_cnodeID tmp df).rows =
      ((df.rows.map Prod.fst).dedup).filterMap fun cp => tmp.lookup cp := rfl

/-- The columns of the re-keyed table, unfolded. -/
theorem replace_cols_eq {κ : Type} [DecidableEq κ]
    (tmp : List (String × Nat)) (df : DF (String × Nat) κ) :
    (replace_fcpath_with_cnodeID tmp df).cols =
      (df.cols.map fun c =>
        ((df.rows.map Prod.snd).dedup).map fun t => (c, t)).flatten := rfl

/-- Pointwise permutations of mapped lists, as a `Forall₂`. -/
theorem forall₂_perm_map {α β : Type} (f g : α → List β)
    (h : ∀ a, (f a).Perm (g a)) :
    ∀ l : List α, List.Forall₂ List.Perm (l.map f) (l.map g)
  | [] => List.Forall₂.nil
  | a :: l => List.Forall₂.cons (h a) (forall₂_perm_map f g h l)

/-- C2 counterexample: on three runs whose metric-name sets violate the
partition-disjointness invariant — as `check_column_sets` itself detects by
raising — `process_multi` raises no consistency error and silently returns
a merged result. -/
theorem process_multi_accepts_partition_violation :
    check_column_sets (violating_runs.map fun r => r.df.cols.toFinset) =
      none ∧
    (process_multi violating_runs ["a"] [["c"], ["c"], []]).isSome = true := by
  constructor
  · decide
  · decide

/-- C2 amended: `process_multi` performs no metric-set consistency check —
whenever its column selections and inner joins succeed it returns a result,
with no condition on the disjointness of the runs' non-common metric sets;
the disjointness assertion lives only in `check_column_sets`, which
`process_multi` never invokes. -/
theorem process_multi_succeeds_without_disjointness
    (r0 : RunInput) (rest : List RunInput) (co : List String)
    (ncos : List (List String))
    (dc : DF (String × Nat) (Nat × String)) (dn : DF (String × Nat) String)
    (hdc : df_common_pre (r0 :: rest) co = some dc)
    (hdn : df_noncommon_pre (r0 :: rest) ncos = some dn) :
    (process_multi (r0 :: rest) co ncos).isSome = true := by
  simp [process_multi, hdc, hdn]

/-- Witness for the amended C2 on the violating runs. -/
theorem process_multi_succeeds_without_disjointness_witness :
    df_common_pre violating_runs ["a"] = some violating_dc ∧
    df_noncommon_pre violating_runs [["c"], ["c"], []] = some violating_dn ∧
    (process_multi violating_runs ["a"] [["c"], ["c"], []]).isSome = true :=
  ⟨by decide, by decide,
    process_multi_succeeds_without_disjointness run_ac1 [run_ac2, run_a]
      ["a"] [["c"], ["c"], []] violating_dc violating_dn
      (by decide) (by decide)⟩

/-- C5: for every nonempty collection of runs (whose enumerated common and
run-specific metric names are present in the respective tables), the merge
succeeds, the common table's row-key set is the intersection — not the
union — of the runs' row-key sets, so a (callpath, thread) combination
absent from at least one run is dropped, and the non-common table is
restricted to exactly the same surviving row keys (both are inner
joins). -/
theorem merged_row_keys_are_intersection
    (r0 : RunInput) (rest : List RunInput) (co n0 : List String)
    (nrest : List (List String)) (hlen : nrest.length = rest.length)
    (hco : ∀ run ∈ r0 :: rest, ∀ c ∈ co, c ∈ run.df.cols)
    (hnco : ∀ p ∈ ((r0 :: rest).map RunInput.df).zip (n0 :: nrest),
      ∀ c ∈ p.2, c ∈ p.1.cols) :
    ∃ dc dn, df_common_pre (r0 :: rest) co = some dc ∧
      df_noncommon_pre (r0 :: rest) (n0 :: nrest) = some dn ∧
      (∀ key, key ∈ dc.rows ↔ ∀ run ∈ r0 :: rest, key ∈ run.df.rows) ∧
      dn.rows = dc.rows := by
  obtain ⟨dc, hdc, hdcrows, _⟩ := df_common_pre_spec r0 rest co hco
  obtain ⟨dn, hdn, hdnrows, _⟩ :=
    df_noncommon_pre_spec r0 rest n0 nrest hlen hnco
  refine ⟨dc, dn, hdc, hdn, ?_, by rw [hdnrows, hdcrows]⟩
  intro key
  rw [hdcrows, List.mem_filter]
  simp [List.all_eq_true, List.forall_mem_cons]

/-- Witness for C5: two runs with different row sets; only the shared row
survives. -/
theorem merged_row_keys_are_intersection_witness :
    (∀ run ∈ run_two_rows :: [run_ab1], ∀ c ∈ ["a"], c ∈ run.df.cols) ∧
    (∃ dc dn, df_common_pre (run_two_rows :: [run_ab1]) ["a"] = some dc ∧
      df_noncommon_pre (run_two_rows :: [run_ab1]) ([] :: [["b"]]) =
        some dn ∧
      (∀ key, key ∈ dc.rows ↔
        ∀ run ∈ run_two_rows :: [run_ab1], key ∈ run.df.rows) ∧
      dn.rows = dc.rows) :=
  ⟨by decide,
    merged_row_keys_are_intersection run_two_rows [run_ab1] ["a"] []
      [["b"]] (by decide) (by decide) (by decide)⟩

/-- C6: `process_multi` re-keys both merged tables with exclusively the
first run's (Full Callpath → Cnode ID) mapping, applied uniformly, and a
node id is a row of a re-keyed table exactly when some callpath of the
table's rows maps to it — so a row whose callpath is absent from the first
run's mapping is silently dropped by the inner join while the merge still
returns a result, with no error. -/
theorem rekey_uses_first_run_tree
    (r0 : RunInput) (rest : List RunInput) (co : List String)
    (ncos : List (List String))
    (dc : DF (String × Nat) (Nat × String)) (dn : DF (String × Nat) String)
    (hdc : df_common_pre (r0 :: rest) co = some dc)
    (hdn : df_noncommon_pre (r0 :: rest) ncos = some dn) :
    process_multi (r0 :: rest) co ncos =
      some (r0.calltree, replace_fcpath_with_cnodeID r0.calltree_df dc,
        replace_fcpath_with_cnodeID r0.calltree_df dn) ∧
    (∀ {κ : Type} [DecidableEq κ] (tmp : List (String × Nat))
      (df : DF (String × Nat) κ) (i : Nat),
      i ∈ (replace_fcpath_with_cnodeID tmp df).rows ↔
        ∃ cp, cp ∈ df.rows.map Prod.fst ∧ tmp.lookup cp = some i) := by
  constructor
  · simp [process_multi, hdc, hdn]
  · intro κ inst tmp df i
    rw [replace_rows_eq, List.mem_filterMap]
    constructor
    · rintro ⟨cp, hcp, hl⟩
      exact ⟨cp, List.mem_dedup.mp hcp, hl⟩
    · rintro ⟨cp, hcp, hl⟩
      exact ⟨cp, List.mem_dedup.mpr hcp, hl⟩

/-- Witness for C6 on the two identical-metric runs. -/
theorem rekey_uses_first_run_tree_witness :
    (process_multi two_runs ["a", "b"] [[], []] =
      some (run_ab1.calltree,
        replace_fcpath_with_cnodeID run_ab1.calltree_df two_runs_dc,
        replace_fcpath_with_cnodeID run_ab1.calltree_df two_runs_dn)) ∧
    (5 ∈ (replace_fcpath_with_cnodeID [("m", 5)] two_runs_dc).rows ↔
      ∃ cp, cp ∈ two_runs_dc.rows.map Prod.fst ∧
        [("m", 5)].lookup cp = some 5) :=
  ⟨(rekey_uses_first_run_tree run_ab1 [run_ab2] ["a", "b"] [[], []]
      two_runs_dc two_runs_dn (by decide) (by decide)).1,
   (rekey_uses_first_run_tree run_ab1 [run_ab2] ["a", "b"] [[], []]
      two_runs_dc two_runs_dn (by decide) (by decide)).2 [("m", 5)]
      two_runs_dc 5⟩

/-- C10 counterexample: two iteration orders of the same common metric set
— both legitimate enumerations of `set.intersection`, which is exactly what
varies with CPython's hash seed — give different `process_multi` results:
the (run, metric) columns of the common table come out in different
orders. -/
theorem process_multi_depends_on_set_iteration_order :
    (["a", "b"] : List String).Perm ["b", "a"] ∧
    (["a", "b"] : List String).toFinset =
      commonOf (two_runs.map fun r => r.df.cols.toFinset) ∧
    (["b", "a"] : List String).toFinset =
      commonOf (two_runs.map fun r => r.df.cols.toFinset) ∧
    (["a", "b"] : List String).Nodup ∧ (["b", "a"] : List String).Nodup ∧
    process_multi two_runs ["a", "b"] [[], []] ≠
      process_multi two_runs ["b", "a"] [[], []] :=
  ⟨by decide, by decide, by decide, by decide, by decide, by decide⟩

/-- C10 amended: `process_multi` is a pure function of its inputs together
with the ambient, hash-dependent set-iteration order, so equal inputs under
the same order (one process, one hash seed) give equal results; across two
different iteration orders of the common metric set, the returned call tree,
the rows of the common table and the whole run-specific table are unchanged,
and the common table's (run, metric) column list is permuted — the column
order is the only part that depends on that ambient state. -/
theorem process_multi_deterministic_up_to_column_order
    (runs : List RunInput) (o1 o2 : List String) (ncos : List (List String))
    (hperm : o1.Perm o2)
    (out1 out2 : CallTreeNode ×
      DF Nat ((Nat × String) × Nat) × DF Nat (String × Nat))
    (h1 : process_multi runs o1 ncos = some out1)
    (h2 : process_multi runs o2 ncos = some out2) :
    out1.1 = out2.1 ∧ (out1.2.1).rows = (out2.2.1).rows ∧
    (out1.2.1).cols.Perm (out2.2.1).cols ∧ out1.2.2 = out2.2.2 := by
  match runs with
  | [] =>
    rw [process_multi] at h1
    simp at h1
  | r0 :: rest =>
    rw [process_multi] at h1 h2
    simp only [List.head?_cons, Option.bind_eq_bind, Option.some_bind] at h1 h2
    rcases hb1 : df_common_pre (r0 :: rest) o1 with _ | dc1
    · rw [hb1] at h1; simp at h1
    rcases hb2 : df_common_pre (r0 :: rest) o2 with _ | dc2
    · rw [hb2] at h2; simp at h2
    rcases hn1 : df_noncommon_pre (r0 :: rest) ncos with _ | dn1
    · rw [hb1, hn1] at h1; simp at h1
    rw [hb1, hn1] at h1
    rw [hb2, hn1] at h2
    simp only [Option.bind_eq_bind, Option.some_bind, Option.pure_def,
      Option.some.injEq] at h1 h2
    have e1 := h1
    have e2 := h2
    have hsel1 : ∀ run ∈ r0 :: rest, ∀ c ∈ o1, c ∈ run.df.cols := by
      have hb1' := hb1
      rw [df_common_pre] at hb1'
      rcases Option.bind_eq_some.mp hb1' with ⟨l1, hl1, _⟩
      rw [dfs2_common_of] at hl1
      intro run hrun c hc
      have hrun' : run ∈ ((r0 :: rest).enum).map Prod.snd := by
        rw [List.enum, List.enumFrom_map_snd]; exact hrun
      rcases List.mem_map.mp hrun' with ⟨p, hp, he⟩
      have hiso := comprehension_mem_isSome _ _ _ hl1 p hp
      rw [Option.isSome_map', selectCols_isSome_iff] at hiso
      exact he ▸ hiso c hc
    have hsel2 : ∀ run ∈ r0 :: rest, ∀ c ∈ o2, c ∈ run.df.cols :=
      fun run hrun c hc => hsel1 run hrun c (hperm.mem_iff.mpr hc)
    obtain ⟨dc1', hdc1', hrows1, hcols1⟩ := df_common_pre_spec r0 rest o1 hsel1
    obtain ⟨dc2', hdc2', hrows2, hcols2⟩ := df_common_pre_spec r0 rest o2 hsel2
    rw [hb1] at hdc1'
    rw [hb2] at hdc2'
    obtain rfl := Option.some.inj hdc1'
    obtain rfl := Option.some.inj hdc2'
    have hroweq : dc1.rows = dc2.rows := hrows1.trans hrows2.symm
    have hcolperm : dc1.cols.Perm dc2.cols := by
      rw [hcols1, hcols2]
      exact List.Perm.flatten_congr
        (forall₂_perm_map (fun p : Nat × RunInput => o1.map fun c => (p.1, c))
          (fun p : Nat × RunInput => o2.map fun c => (p.1, c))
          (fun p => hperm.map fun c => (p.1, c)) (r0 :: rest).enum)
    rw [← e1, ← e2]
    refine ⟨rfl, ?_, ?_, rfl⟩
    · rw [replace_rows_eq, replace_rows_eq, hroweq]
    · rw [replace_cols_eq, replace_cols_eq, hroweq]
      exact (hcolperm.map _).flatten

/-- Witness for the amended C10 on the two identical-metric runs and the
two enumerations of their common metric set. -/
theorem process_multi_deterministic_up_to_column_order_witness :
    (["a", "b"] : List String).Perm ["b", "a"] ∧
    ((tiny_tree, replace_fcpath_with_cnodeID [("m", 0)] two_runs_dc,
        replace_fcpath_with_cnodeID [("m", 0)] two_runs_dn).1 =
      (tiny_tree, replace_fcpath_with_cnodeID [("m", 0)] two_runs_dc_rev,
        replace_fcpath_with_cnodeID [("m", 0)] two_runs_dn).1 ∧
     (replace_fcpath_with_cnodeID [("m", 0)] two_runs_dc).rows =
      (replace_fcpath_with_cnodeID [("m", 0)] two_runs_dc_rev).rows ∧
     (replace_fcpath_with_cnodeID [("m", 0)] two_runs_dc).cols.Perm
      (replace_fcpath_with_cnodeID [("m", 0)] two_runs_dc_rev).cols ∧
     (tiny_tree, replace_fcpath_with_cnodeID [("m", 0)] two_runs_dc,
        replace_fcpath_with_cnodeID [("m", 0)] two_runs_dn).2.2 =
      (tiny_tree, replace_fcpath_with_cnodeID [("m", 0)] two_runs_dc_rev,
        replace_fcpath_with_cnodeID [("m", 0)] two_runs_dn).2.2) :=
  ⟨by decide,
    process_multi_deterministic_up_to_column_order two_runs
      ["a", "b"] ["b", "a"] [[], []] (by decide)
      (tiny_tree, replace_fcpath_with_cnodeID [("m", 0)] two_runs_dc,
        replace_fcpath_with_cnodeID [("m", 0)] two_runs_dn)
      (tiny_tree, replace_fcpath_with_cnodeID [("m", 0)] two_runs_dc_rev,
        replace_fcpath_with_cnodeID [("m", 0)] two_runs_dn)
      (by decide) (by decide)⟩

end Pycube

